import Mathlib

/-!
Binary output stream of the seria serialization layer.

A shallow embedding of `src/seria/BinaryOutputStream.cpp` and the properties of
the byte strings it writes.

Bytes are natural numbers below 256, the output stream is the list of bytes
written so far (newest last), machine integers are `Nat` / `Int` restricted to
their range by hypotheses, and the one place where a conversion wraps (the
signed to unsigned `static_cast`) is an explicit `% 2 ^ w`.
-/

namespace seria

/-! ## Definitions -/

/-- Modelled from the spec: the output byte sink `common::IOutputStream`
(declared in `common/Streams.hpp`, which is not part of the sources at hand).
Spec, section 3: an output stream is an append-only ordered sequence of bytes
with the cursor at its end. The sink is taken to be growable, so a write never
fails. -/
abbrev ByteStream := List Nat

/-- Modelled from the spec: `IOutputStream::write(const void *data, size_t size)`
of `common/Streams.hpp`, which appends the `size` bytes found at `data`. -/
def ByteStream.write (stream : ByteStream) (data : List Nat) (size : Nat) : ByteStream :=
  stream ++ data.take size

/-- Modelled from the spec: the loop of `write_varint` (`common/Varint.hpp`, not
part of the sources at hand). Spec, section 3: an unsigned integer is written as
7-bit little-endian groups with the high bit set on all bytes except the last,
and the encoding is minimal. The first argument bounds the number of rounds;
`varint_unfold` shows that the bound used by `varint_bytes` is never reached. -/
def varint_loop : Nat → Nat → List Nat
  | 0, v => [v % 128]
  | fuel + 1, v =>
    if v < 128 then [v] else (v % 128 + 128) :: varint_loop fuel (v / 128)

/-- Modelled from the spec: the bytes `write_varint` produces for `value`. -/
def varint_bytes (value : Nat) : List Nat :=
  varint_loop value value

/-- Modelled from the spec: `write_varint(stream, value)` of `common/Varint.hpp`
appends the varint of the unsigned `value` to the stream. -/
def write_varint (stream : ByteStream) (value : Nat) : ByteStream :=
  ByteStream.write stream (varint_bytes value) (varint_bytes value).length

/-- The conversion `static_cast<uintN_t>(value)` of a signed integer to the
unsigned type of `bits` bits: the value modulo `2 ^ bits`. -/
def static_cast_unsigned (bits : Nat) (value : Int) : Nat :=
  (value % 2 ^ bits).toNat

/-- Embedding of `BinaryOutputStream::beginMap(size_t &size)`: the new stream and the
(unchanged) content of the reference argument. -/
def beginMap (stream : ByteStream) (size : Nat) : ByteStream × Nat :=
  (write_varint stream size, size)

/-- Embedding of `BinaryOutputStream::beginArray(size_t &size, bool fixed_size)`: the new
stream and the content of the reference argument. -/
def beginArray (stream : ByteStream) (size : Nat) (fixed_size : Bool) : ByteStream × Nat :=
  if !fixed_size then (write_varint stream size, size) else (stream, size)

/-- Embedding of `BinaryOutputStream::seria_v(uint8_t &value)`. -/
def seria_v_uint8 (stream : ByteStream) (value : Nat) : ByteStream :=
  write_varint stream value

/-- Embedding of `BinaryOutputStream::seria_v(uint16_t &value)`. -/
def seria_v_uint16 (stream : ByteStream) (value : Nat) : ByteStream :=
  write_varint stream value

/-- Embedding of `BinaryOutputStream::seria_v(int16_t &value)`. -/
def seria_v_int16 (stream : ByteStream) (value : Int) : ByteStream :=
  write_varint stream (static_cast_unsigned 16 value)

/-- Embedding of `BinaryOutputStream::seria_v(uint32_t &value)`. -/
def seria_v_uint32 (stream : ByteStream) (value : Nat) : ByteStream :=
  write_varint stream value

/-- Embedding of `BinaryOutputStream::seria_v(int32_t &value)`. -/
def seria_v_int32 (stream : ByteStream) (value : Int) : ByteStream :=
  write_varint stream (static_cast_unsigned 32 value)

/-- Embedding of `BinaryOutputStream::seria_v(int64_t &value)`. -/
def seria_v_int64 (stream : ByteStream) (value : Int) : ByteStream :=
  write_varint stream (static_cast_unsigned 64 value)

/-- Embedding of `BinaryOutputStream::seria_v(uint64_t &value)`. -/
def seria_v_uint64 (stream : ByteStream) (value : Nat) : ByteStream :=
  write_varint stream value

/-- Embedding of `BinaryOutputStream::seria_v(bool &value)`: `char boolVal = value` is 1 for
`true` and 0 for `false`, and one byte is written. -/
def seria_v_bool (stream : ByteStream) (value : Bool) : ByteStream :=
  let boolVal : Nat := if value then 1 else 0
  ByteStream.write stream [boolVal] 1

/-- Embedding of `BinaryOutputStream::seria_v(std::string &value)`; a string is the list of
its bytes, `value.size()` its length and `value.data()` the bytes themselves. -/
def seria_v_string (stream : ByteStream) (value : List Nat) : ByteStream :=
  ByteStream.write (write_varint stream value.length) value value.length

/-- Embedding of `BinaryOutputStream::seria_v(BinaryArray &value)`; a `BinaryArray` is a
vector of bytes. -/
def seria_v_BinaryArray (stream : ByteStream) (value : List Nat) : ByteStream :=
  ByteStream.write (write_varint stream value.length) value value.length

/-- Embedding of `BinaryOutputStream::binary(void *value, size_t size)`; `value` is the
content of the memory the pointer refers to. -/
def binary (stream : ByteStream) (value : List Nat) (size : Nat) : ByteStream :=
  ByteStream.write stream value size

/-- Embedding of `BinaryOutputStream::nextMapKey(std::string &name)`: `(*this)(name)` hands
the string to `seria_v(std::string &)`. -/
def nextMapKey (stream : ByteStream) (name : List Nat) : ByteStream :=
  seria_v_string stream name

/-- The unsigned integer types that have a `seria_v` overload. -/
inductive UnsignedType where
  | uint8_t
  | uint16_t
  | uint32_t
  | uint64_t
  deriving DecidableEq

/-- Width in bits of an unsigned integer type. -/
def UnsignedType.bits : UnsignedType → Nat
  | .uint8_t => 8
  | .uint16_t => 16
  | .uint32_t => 32
  | .uint64_t => 64

/-- Overload resolution of `seria_v` on an unsigned integer argument. -/
def seria_v_unsigned : UnsignedType → ByteStream → Nat → ByteStream
  | .uint8_t => seria_v_uint8
  | .uint16_t => seria_v_uint16
  | .uint32_t => seria_v_uint32
  | .uint64_t => seria_v_uint64

/-- The signed integer types that have a `seria_v` overload. -/
inductive SignedType where
  | int16_t
  | int32_t
  | int64_t
  deriving DecidableEq

/-- Width in bits of a signed integer type. -/
def SignedType.bits : SignedType → Nat
  | .int16_t => 16
  | .int32_t => 32
  | .int64_t => 64

/-- The unsigned type of the same width. -/
def SignedType.toUnsigned : SignedType → UnsignedType
  | .int16_t => .uint16_t
  | .int32_t => .uint32_t
  | .int64_t => .uint64_t

/-- Overload resolution of `seria_v` on a signed integer argument. -/
def seria_v_signed : SignedType → ByteStream → Int → ByteStream
  | .int16_t => seria_v_int16
  | .int32_t => seria_v_int32
  | .int64_t => seria_v_int64

/-- The value of a C++ `double`, kept as its 64-bit pattern; the encoder never
looks at it. -/
structure Double where
  bits : Nat
  deriving DecidableEq

/-- The ways a call of the encoder can fail to return. -/
inductive Failure where
  /-- The `assert(false)` fired and ended the process (assertions compiled in). -/
  | assertion_failed
  /-- A `std::logic_error` with the given `what()` was thrown. -/
  | logic_error (what : String)
  deriving DecidableEq

/-- State of the stream after a call, and whether the call returned. -/
structure Outcome where
  stream : ByteStream
  result : Except Failure Unit

/-- Embedding of `BinaryOutputStream::seria_v(double &value)`: `assert(false)` followed by
`throw std::logic_error(...)`. `NDEBUG` tells whether assertions are compiled
out, in which case the `assert` line is empty and the `throw` is reached. -/
def seria_v_double (NDEBUG : Bool) (stream : ByteStream) (_value : Double) : Outcome :=
  if !NDEBUG then
    { stream := stream, result := .error .assertion_failed }
  else
    { stream := stream,
      result := .error
        (.logic_error "double serialization is not supported in BinaryOutputStreamSeria") }

/-- The order `operator<` of `std::string`: lexicographic on the bytes, a proper
initial segment coming first. -/
def string_less : List Nat → List Nat → Bool
  | _, [] => false
  | [], _ :: _ => true
  | a :: as, b :: bs =>
    if a < b then true else if b < a then false else string_less as bs

/-- Insertion into a `std::map<std::string, V>`, kept as the list of its entries
in iteration order (ascending keys): the entry goes before the first larger
key, and an entry whose key is already present is not inserted. -/
def map_insert {V : Type} (entry : List Nat × V) : List (List Nat × V) → List (List Nat × V)
  | [] => [entry]
  | e :: rest =>
    if string_less entry.1 e.1 then entry :: e :: rest
    else if string_less e.1 entry.1 then e :: map_insert entry rest
    else e :: rest

/-- The `std::map<std::string, V>` obtained by inserting the entries one after
the other into an empty map. -/
def map_of {V : Type} (entries : List (List Nat × V)) : List (List Nat × V) :=
  entries.foldl (fun m entry => map_insert entry m) []

/-- Modelled from the spec: the traversal of a string-keyed mapping (the
container adapter of `seria/ISeria.hpp`, not part of the sources at hand).
Spec, sections 3 and 4.1: `beginMap` with the number of entries, then for each
entry in ascending key order `nextMapKey` on the key followed by the encoding
of the value; `endMap` writes nothing. `value` is the content of the map in
iteration order and `ser_value` the traversal of a mapped value. -/
def ser_map {V : Type} (ser_value : ByteStream → V → ByteStream) (stream : ByteStream)
    (value : List (List Nat × V)) : ByteStream :=
  value.foldl (fun s kv => ser_value (nextMapKey s kv.1) kv.2) (beginMap stream value.length).1

/-! ## Theorems -/

theorem varint_loop_fuel (f1 : Nat) : ∀ (f2 v : Nat), v ≤ f1 → v ≤ f2 →
    varint_loop f1 v = varint_loop f2 v := by
  induction f1 with
  | zero =>
    intro f2 v h1 h2
    have hv : v = 0 := by omega
    subst hv
    cases f2 <;> simp [varint_loop]
  | succ n ih =>
    intro f2 v h1 h2
    by_cases hlt : v < 128
    · cases f2 with
      | zero =>
        have hv : v = 0 := by omega
        subst hv
        simp [varint_loop]
      | succ m => simp [varint_loop, hlt]
    · cases f2 with
      | zero => omega
      | succ m =>
        have hd : v / 128 < v := Nat.div_lt_self (by omega) (by omega)
        simp only [varint_loop, hlt, if_false]
        rw [ih m (v / 128) (by omega) (by omega)]

/-- The loop of `write_varint`, free of the round bound. -/
theorem varint_unfold (v : Nat) :
    varint_bytes v = if v < 128 then [v] else (v % 128 + 128) :: varint_bytes (v / 128) := by
  unfold varint_bytes
  by_cases hlt : v < 128
  · cases v with
    | zero => simp [varint_loop]
    | succ n => simp [varint_loop, hlt]
  · cases v with
    | zero => omega
    | succ n =>
      have hd : (n + 1) / 128 < n + 1 := Nat.div_lt_self (by omega) (by omega)
      simp only [varint_loop, hlt, if_false]
      rw [varint_loop_fuel n ((n + 1) / 128) ((n + 1) / 128) (by omega) (le_refl _)]

theorem write_varint_eq (stream : ByteStream) (v : Nat) :
    write_varint stream v = stream ++ varint_bytes v := by
  simp [write_varint, ByteStream.write]

theorem varint_length_pos (v : Nat) : 1 ≤ (varint_bytes v).length := by
  rw [varint_unfold]
  split <;> simp

theorem varint_groups (v : Nat) : ∀ i, i < (varint_bytes v).length →
    (varint_bytes v).getD i 0 % 128 = v / 128 ^ i % 128 := by
  induction v using Nat.strong_induction_on with
  | _ v ih =>
    intro i hi
    rw [varint_unfold] at hi ⊢
    by_cases hlt : v < 128
    · simp only [hlt, if_true, List.length_singleton] at hi ⊢
      have h0 : i = 0 := by omega
      subst h0
      simp
    · simp only [hlt, if_false, List.length_cons] at hi ⊢
      cases i with
      | zero => simp
      | succ j =>
        have hd : v / 128 < v := Nat.div_lt_self (by omega) (by omega)
        simp only [List.getD_cons_succ]
        rw [ih (v / 128) hd j (by omega), Nat.div_div_eq_div_mul, pow_succ, mul_comm]

theorem varint_high_bits (v : Nat) : ∀ i, i + 1 < (varint_bytes v).length →
    128 ≤ (varint_bytes v).getD i 0 ∧ (varint_bytes v).getD i 0 < 256 := by
  induction v using Nat.strong_induction_on with
  | _ v ih =>
    intro i hi
    rw [varint_unfold] at hi ⊢
    by_cases hlt : v < 128
    · simp only [hlt, if_true, List.length_singleton] at hi
      omega
    · simp only [hlt, if_false, List.length_cons] at hi ⊢
      cases i with
      | zero =>
        simp only [List.getD_cons_zero]
        omega
      | succ j =>
        have hd : v / 128 < v := Nat.div_lt_self (by omega) (by omega)
        simp only [List.getD_cons_succ]
        exact ih (v / 128) hd j (by omega)

theorem varint_last_byte (v : Nat) : ∀ i, i + 1 = (varint_bytes v).length →
    (varint_bytes v).getD i 0 < 128 := by
  induction v using Nat.strong_induction_on with
  | _ v ih =>
    intro i hi
    rw [varint_unfold] at hi ⊢
    by_cases hlt : v < 128
    · simp only [hlt, if_true, List.length_singleton] at hi ⊢
      have h0 : i = 0 := by omega
      subst h0
      simpa using hlt
    · simp only [hlt, if_false, List.length_cons] at hi ⊢
      have hd : v / 128 < v := Nat.div_lt_self (by omega) (by omega)
      have hpos := varint_length_pos (v / 128)
      cases i with
      | zero => omega
      | succ j =>
        simp only [List.getD_cons_succ]
        exact ih (v / 128) hd j (by omega)

theorem varint_length_le (k : Nat) : ∀ v, v < 128 ^ (k + 1) →
    (varint_bytes v).length ≤ k + 1 := by
  induction k with
  | zero =>
    intro v hv
    rw [varint_unfold]
    have hlt : v < 128 := by simpa using hv
    simp [hlt]
  | succ n ih =>
    intro v hv
    rw [varint_unfold]
    by_cases hlt : v < 128
    · simp [hlt]
    · simp only [hlt, if_false, List.length_cons]
      have hq : v / 128 < 128 ^ (n + 1) := by
        rw [Nat.div_lt_iff_lt_mul (by decide)]
        rw [pow_succ] at hv
        exact hv
      have := ih (v / 128) hq
      omega

theorem varint_length_ge (k : Nat) : ∀ v, 128 ^ k ≤ v →
    k + 1 ≤ (varint_bytes v).length := by
  induction k with
  | zero =>
    intro v _
    exact varint_length_pos v
  | succ n ih =>
    intro v hv
    rw [varint_unfold]
    have h128 : 128 ≤ v := by
      have h1 : 1 ≤ 128 ^ n := Nat.one_le_pow _ _ (by decide)
      rw [pow_succ] at hv
      nlinarith
    have hlt : ¬ v < 128 := by omega
    simp only [hlt, if_false, List.length_cons]
    have hq : 128 ^ n ≤ v / 128 := by
      rw [Nat.le_div_iff_mul_le (by decide)]
      rw [pow_succ] at hv
      exact hv
    have := ih (v / 128) hq
    omega

theorem varint_lt_pow (v : Nat) : v < 128 ^ (varint_bytes v).length := by
  by_contra hge
  have h := varint_length_ge (varint_bytes v).length v (by omega)
  omega

theorem varint_minimal (v : Nat) :
    (varint_bytes v).length = 1 ∨ 128 ^ ((varint_bytes v).length - 1) ≤ v := by
  by_cases h1 : (varint_bytes v).length = 1
  · exact Or.inl h1
  · right
    by_contra hlt
    have hpos := varint_length_pos v
    have hk : (varint_bytes v).length - 1 = ((varint_bytes v).length - 2) + 1 := by omega
    rw [hk] at hlt
    have := varint_length_le ((varint_bytes v).length - 2) v (by omega)
    omega

/-- The varint is a prefix code: what follows it can be told apart from it. -/
theorem varint_bytes_cancel (a : Nat) : ∀ (b : Nat) (r1 r2 : List Nat),
    varint_bytes a ++ r1 = varint_bytes b ++ r2 → a = b ∧ r1 = r2 := by
  induction a using Nat.strong_induction_on with
  | _ a ih =>
    intro b r1 r2 h
    rw [varint_unfold a, varint_unfold b] at h
    by_cases ha : a < 128 <;> by_cases hb : b < 128
    · simp only [ha, hb, if_true, List.singleton_append, List.cons.injEq] at h
      exact h
    · simp only [ha, hb, if_true, if_false, List.singleton_append, List.cons_append,
        List.cons.injEq] at h
      omega
    · simp only [ha, hb, if_true, if_false, List.singleton_append, List.cons_append,
        List.cons.injEq] at h
      omega
    · simp only [ha, hb, if_false, List.cons_append, List.cons.injEq] at h
      have hd : a / 128 < a := Nat.div_lt_self (by omega) (by omega)
      obtain ⟨hq, hr⟩ := ih (a / 128) hd (b / 128) r1 r2 h.2
      refine ⟨?_, hr⟩
      have h1 := h.1
      omega

theorem varint_bytes_injective (a b : Nat) (h : varint_bytes a = varint_bytes b) : a = b := by
  have := varint_bytes_cancel a b [] [] (by simpa using h)
  exact this.1

theorem seria_v_unsigned_eq (t : UnsignedType) (stream : ByteStream) (v : Nat) :
    seria_v_unsigned t stream v = stream ++ varint_bytes v := by
  cases t <;>
    simp [seria_v_unsigned, seria_v_uint8, seria_v_uint16, seria_v_uint32, seria_v_uint64,
      write_varint_eq]

theorem seria_v_signed_eq (t : SignedType) (stream : ByteStream) (v : Int) :
    seria_v_signed t stream v = stream ++ varint_bytes (static_cast_unsigned t.bits v) := by
  cases t <;>
    simp [seria_v_signed, seria_v_int16, seria_v_int32, seria_v_int64, SignedType.bits,
      write_varint_eq]

theorem seria_v_string_eq (stream : ByteStream) (b : List Nat) :
    seria_v_string stream b = stream ++ varint_bytes b.length ++ b := by
  simp [seria_v_string, write_varint_eq, ByteStream.write]

theorem static_cast_unsigned_lt (bits : Nat) (v : Int) :
    static_cast_unsigned bits v < 2 ^ bits := by
  unfold static_cast_unsigned
  have hpos : (0 : Int) < 2 ^ bits := by positivity
  have h1 := Int.emod_nonneg v (ne_of_gt hpos)
  have h2 := Int.emod_lt_of_pos v hpos
  zify
  rw [Int.toNat_of_nonneg h1]
  exact_mod_cast h2

theorem static_cast_unsigned_cast (bits : Nat) (v : Int)
    (hlo : -(2 : Int) ^ bits ≤ v) (hhi : v < 2 ^ bits) :
    (static_cast_unsigned bits v : Int) = if 0 ≤ v then v else v + 2 ^ bits := by
  unfold static_cast_unsigned
  have hpos : (0 : Int) < 2 ^ bits := by positivity
  rw [Int.toNat_of_nonneg (Int.emod_nonneg v (ne_of_gt hpos))]
  split
  · exact Int.emod_eq_of_lt (by assumption) hhi
  · rw [← Int.add_emod_self]
    exact Int.emod_eq_of_lt (by omega) (by omega)

theorem pow_pred_le (bits : Nat) : (2 : Int) ^ (bits - 1) ≤ 2 ^ bits :=
  pow_le_pow_right₀ (by norm_num) (Nat.sub_le bits 1)

/-- C1: for every unsigned value `v` of width 8, 16, 32 or 64 bits, `seria_v`
appends exactly the minimal varint of `v`: at least one byte, byte `i` carries
the `i`-th 7-bit group of `v` (least significant first), every byte but the last
has the high bit set (it lies in 128..255), the last byte has it clear, every
group of `v` is written (`v < 128 ^ length`) and no more than needed (one byte,
or the last group is not zero); `v = 0` gives the single byte 00, no value takes
more than 10 bytes, and 127, 128, 16383, 16384 give 7f, 80 01, ff 7f, 80 80 01. -/
theorem seria_v_unsigned_minimal_varint (t : UnsignedType) (stream : ByteStream) (v : Nat)
    (hv : v < 2 ^ t.bits) :
    ∃ bs : List Nat,
      seria_v_unsigned t stream v = stream ++ bs ∧
      1 ≤ bs.length ∧
      (∀ i, i < bs.length → bs.getD i 0 % 128 = v / 128 ^ i % 128) ∧
      (∀ i, i + 1 < bs.length → 128 ≤ bs.getD i 0 ∧ bs.getD i 0 < 256) ∧
      (∀ i, i + 1 = bs.length → bs.getD i 0 < 128) ∧
      v < 128 ^ bs.length ∧
      (bs.length = 1 ∨ 128 ^ (bs.length - 1) ≤ v) ∧
      (v = 0 → bs = [0]) ∧
      bs.length ≤ 10 ∧
      seria_v_uint64 [] 127 = [0x7f] ∧
      seria_v_uint64 [] 128 = [0x80, 0x01] ∧
      seria_v_uint64 [] 16383 = [0xff, 0x7f] ∧
      seria_v_uint64 [] 16384 = [0x80, 0x80, 0x01] := by
  refine ⟨varint_bytes v, seria_v_unsigned_eq t stream v, varint_length_pos v, varint_groups v,
    varint_high_bits v, varint_last_byte v, varint_lt_pow v, varint_minimal v, ?_, ?_,
    by decide, by decide, by decide, by decide⟩
  · intro h0
    subst h0
    decide
  · apply varint_length_le 9 v
    have hb : (2 : Nat) ^ t.bits ≤ 2 ^ 64 :=
      Nat.pow_le_pow_right (by decide) (by cases t <;> simp [UnsignedType.bits])
    have h70 : (2 : Nat) ^ 64 ≤ 128 ^ (9 + 1) := by norm_num
    omega

/-- C2: for every signed value `v` of width 16, 32 or 64 bits, `seria_v` appends
what the unsigned `seria_v` of the same width appends for `v mod 2 ^ w`; that
number is a value of the unsigned type, is `v` itself when `v ≥ 0` and
`v + 2 ^ w` otherwise, and no other signed value of the width gives the same
bytes. The 16-bit value -1 is written as ff ff 03. -/
theorem seria_v_signed_reinterprets (t : SignedType) (stream : ByteStream) (v : Int)
    (hlo : -(2 : Int) ^ (t.bits - 1) ≤ v) (hhi : v < 2 ^ (t.bits - 1)) :
    seria_v_signed t stream v
        = seria_v_unsigned t.toUnsigned stream (v % 2 ^ t.bits).toNat ∧
      (v % 2 ^ t.bits).toNat < 2 ^ t.toUnsigned.bits ∧
      (((v % 2 ^ t.bits).toNat : Int) = if 0 ≤ v then v else v + 2 ^ t.bits) ∧
      (∀ u : Int, -(2 : Int) ^ (t.bits - 1) ≤ u → u < 2 ^ (t.bits - 1) →
        seria_v_signed t stream u = seria_v_signed t stream v → u = v) ∧
      seria_v_int16 [] (-1) = [0xff, 0xff, 0x03] := by
  have hp := pow_pred_le t.bits
  have hbits : t.toUnsigned.bits = t.bits := by cases t <;> rfl
  refine ⟨?_, ?_, ?_, ?_, by decide⟩
  · rw [seria_v_signed_eq, seria_v_unsigned_eq]
    rfl
  · rw [hbits]
    exact static_cast_unsigned_lt t.bits v
  · exact static_cast_unsigned_cast t.bits v (by omega) (by omega)
  · intro u hulo huhi h
    rw [seria_v_signed_eq, seria_v_signed_eq] at h
    have hc := varint_bytes_injective _ _ (List.append_cancel_left h)
    have hu := static_cast_unsigned_cast t.bits u (by omega) (by omega)
    have hv := static_cast_unsigned_cast t.bits v (by omega) (by omega)
    rw [hc] at hu
    have hd : (2 : Int) ^ t.bits = 2 * 2 ^ (t.bits - 1) := by
      cases t <;> norm_num [SignedType.bits]
    have he := hu.symm.trans hv
    split_ifs at he <;> omega

/-- C3: for every string and every byte array with content `b` of length `L`,
`seria_v` appends the varint of `L` followed by the `L` bytes of `b` in order,
so the stream grows by the length of that varint plus `L`; a string and a byte
array with the same content give the same bytes; "abc" is written as
03 61 62 63 and the empty string as 00. -/
theorem seria_v_string_length_prefixed (stream : ByteStream) (b : List Nat) :
    seria_v_string stream b = write_varint stream b.length ++ b ∧
      seria_v_string stream b = stream ++ varint_bytes b.length ++ b ∧
      (seria_v_string stream b).length
        = stream.length + (varint_bytes b.length).length + b.length ∧
      seria_v_BinaryArray stream b = seria_v_string stream b ∧
      seria_v_string [] [0x61, 0x62, 0x63] = [0x03, 0x61, 0x62, 0x63] ∧
      seria_v_BinaryArray [] [0x61, 0x62, 0x63] = [0x03, 0x61, 0x62, 0x63] ∧
      seria_v_string [] [] = [0x00] ∧
      seria_v_BinaryArray [] [] = [0x00] := by
  refine ⟨?_, seria_v_string_eq stream b, ?_, rfl, by decide, by decide, by decide, by decide⟩
  · simp [seria_v_string, ByteStream.write]
  · rw [seria_v_string_eq]
    simp [List.length_append, Nat.add_assoc]

/-- C4: for every bool, `seria_v` appends exactly one byte, 00 for `false` and
01 for `true`, and never any other byte. -/
theorem seria_v_bool_one_byte (stream : ByteStream) (value : Bool) :
    seria_v_bool stream value = stream ++ [if value then 1 else 0] ∧
      seria_v_bool stream false = stream ++ [0x00] ∧
      seria_v_bool stream true = stream ++ [0x01] ∧
      (seria_v_bool stream value).length = stream.length + 1 ∧
      (∀ bs : List Nat, seria_v_bool stream value = stream ++ bs → bs = [0x00] ∨ bs = [0x01]) := by
  refine ⟨by simp [seria_v_bool, ByteStream.write], by simp [seria_v_bool, ByteStream.write],
    by simp [seria_v_bool, ByteStream.write], by simp [seria_v_bool, ByteStream.write], ?_⟩
  intro bs h
  have h2 : stream ++ [if value then 1 else 0] = stream ++ bs := by
    rw [← h]
    simp [seria_v_bool, ByteStream.write]
  have h3 := List.append_cancel_left h2
  cases value
  · left
    simpa using h3.symm
  · right
    simpa using h3.symm

/-- C5: `beginArray(n, fixed_size)` appends the varint of `n` when `fixed_size`
is false and nothing when it is true; `beginMap(n)` appends the varint of `n`
for every `n`, also for `n = 0` (the byte 00); neither changes `n`. -/
theorem beginArray_beginMap_size (stream : ByteStream) (n : Nat) :
    beginArray stream n false = (write_varint stream n, n) ∧
      beginArray stream n false = (stream ++ varint_bytes n, n) ∧
      beginArray stream n true = (stream, n) ∧
      beginMap stream n = (write_varint stream n, n) ∧
      beginMap stream n = (stream ++ varint_bytes n, n) ∧
      beginMap stream 0 = (write_varint stream 0, 0) ∧
      (∀ fixed_size : Bool, (beginArray stream n fixed_size).2 = n) ∧
      (beginMap stream n).2 = n := by
  refine ⟨rfl, ?_, rfl, rfl, ?_, rfl, ?_, rfl⟩
  · simp [beginArray, write_varint_eq]
  · simp [beginMap, write_varint_eq]
  · intro f
    cases f <;> rfl

/-- C7: for every double and every state of the stream, `seria_v(double)` does
not return: with assertions compiled in `assert(false)` ends the process, with
assertions compiled out `std::logic_error` is thrown; in both cases the stream
holds exactly the bytes it held before. -/
theorem seria_v_double_never_succeeds (NDEBUG : Bool) (stream : ByteStream) (value : Double) :
    (seria_v_double NDEBUG stream value).result ≠ .ok () ∧
      (seria_v_double NDEBUG stream value).stream = stream ∧
      (seria_v_double true stream value).result
        = .error (.logic_error
            "double serialization is not supported in BinaryOutputStreamSeria") ∧
      (seria_v_double false stream value).result = .error .assertion_failed := by
  refine ⟨?_, ?_, rfl, rfl⟩
  · cases NDEBUG <;> simp [seria_v_double]
  · cases NDEBUG <;> simp [seria_v_double]

/-- C8: for every buffer of `n` bytes, `binary(buffer, n)` appends exactly these
`n` bytes in order and nothing else (no length prefix): the stream grows by `n`
bytes, by none when `n = 0`, and the bytes it held before stay in place. -/
theorem binary_appends_raw (stream : ByteStream) (buffer : List Nat) (n : Nat)
    (hn : buffer.length = n) :
    binary stream buffer n = stream ++ buffer ∧
      (binary stream buffer n).length = stream.length + n ∧
      (binary stream buffer n).take stream.length = stream ∧
      (binary stream buffer n).drop stream.length = buffer ∧
      (n = 0 → binary stream buffer n = stream) := by
  subst hn
  have h : binary stream buffer buffer.length = stream ++ buffer := by
    simp [binary, ByteStream.write]
  refine ⟨h, ?_, ?_, ?_, ?_⟩
  · rw [h]
    simp
  · rw [h]
    simp
  · rw [h]
    simp
  · intro h0
    rw [h]
    have : buffer = [] := List.length_eq_zero.mp h0
    simp [this]

theorem varint_length_eq (k x : Nat) (hlo : 128 ^ k ≤ x) (hhi : x < 128 ^ (k + 1)) :
    (varint_bytes x).length = k + 1 :=
  le_antisymm (varint_length_le k x hhi) (varint_length_ge k x hlo)

theorem string_less_irrefl (a : List Nat) : string_less a a = false := by
  induction a with
  | nil => rfl
  | cons x xs ih => simp [string_less, ih]

theorem string_less_trans : ∀ a b c : List Nat,
    string_less a b = true → string_less b c = true → string_less a c = true := by
  intro a
  induction a with
  | nil =>
    intro b c h1 h2
    cases b with
    | nil => simp [string_less] at h1
    | cons y ys =>
      cases c with
      | nil => simp [string_less] at h2
      | cons z zs => simp [string_less]
  | cons x xs ih =>
    intro b c h1 h2
    cases b with
    | nil => simp [string_less] at h1
    | cons y ys =>
      cases c with
      | nil => simp [string_less] at h2
      | cons z zs =>
        simp only [string_less] at h1 h2 ⊢
        by_cases hxy : x < y
        · by_cases hyz : y < z
          · have hxz : x < z := by omega
            simp [hxz]
          · by_cases hzy : z < y
            · simp [hyz, hzy] at h2
            · have hxz : x < z := by omega
              simp [hxz]
        · by_cases hyx : y < x
          · simp [hxy, hyx] at h1
          · have hxy2 : x = y := by omega
            subst hxy2
            simp only [hxy, if_false] at h1
            by_cases hyz : x < z
            · simp [hyz]
            · by_cases hzy : z < x
              · simp [hyz, hzy] at h2
              · simp only [hyz, hzy, if_false] at h2 ⊢
                exact ih ys zs h1 h2

theorem string_less_total : ∀ a b : List Nat,
    string_less a b = false → string_less b a = false → a = b := by
  intro a
  induction a with
  | nil =>
    intro b h1 _
    cases b with
    | nil => rfl
    | cons y ys => simp [string_less] at h1
  | cons x xs ih =>
    intro b h1 h2
    cases b with
    | nil => simp [string_less] at h2
    | cons y ys =>
      simp only [string_less] at h1 h2
      by_cases hxy : x < y
      · simp [hxy] at h1
      · by_cases hyx : y < x
        · simp [hyx] at h2
        · have hxy2 : x = y := by omega
          subst hxy2
          simp only [hxy, if_false] at h1 h2
          rw [ih ys h1 h2]

theorem mem_map_insert {V : Type} (entry : List Nat × V) (m : List (List Nat × V))
    (y : List Nat × V) (hy : y ∈ map_insert entry m) : y = entry ∨ y ∈ m := by
  induction m with
  | nil =>
    simp only [map_insert, List.mem_singleton] at hy
    exact Or.inl hy
  | cons e rest ih =>
    simp only [map_insert] at hy
    split_ifs at hy
    · simp only [List.mem_cons] at hy ⊢
      exact hy
    · simp only [List.mem_cons] at hy ⊢
      rcases hy with h | h
      · exact Or.inr (Or.inl h)
      · rcases ih h with h2 | h2
        · exact Or.inl h2
        · exact Or.inr (Or.inr h2)
    · exact Or.inr hy

theorem map_insert_sorted {V : Type} (entry : List Nat × V) (m : List (List Nat × V))
    (hm : m.Pairwise (fun x y => string_less x.1 y.1 = true)) :
    (map_insert entry m).Pairwise (fun x y => string_less x.1 y.1 = true) := by
  induction m with
  | nil => simp [map_insert]
  | cons e rest ih =>
    rw [List.pairwise_cons] at hm
    simp only [map_insert]
    split_ifs with h1 h2
    · refine List.pairwise_cons.mpr ⟨?_, List.pairwise_cons.mpr hm⟩
      intro y hy
      rcases List.mem_cons.mp hy with h | h
      · rw [h]
        exact h1
      · exact string_less_trans _ _ _ h1 (hm.1 y h)
    · refine List.pairwise_cons.mpr ⟨?_, ih hm.2⟩
      intro y hy
      rcases mem_map_insert entry rest y hy with h | h
      · rw [h]
        exact h2
      · exact hm.1 y h
    · exact List.pairwise_cons.mpr hm

theorem map_insert_perm {V : Type} (entry : List Nat × V) (m : List (List Nat × V))
    (hnew : entry.1 ∉ m.map Prod.fst) : (map_insert entry m).Perm (entry :: m) := by
  induction m with
  | nil => simp [map_insert]
  | cons e rest ih =>
    simp only [List.map_cons, List.mem_cons, not_or] at hnew
    simp only [map_insert]
    split_ifs with h1 h2
    · exact List.Perm.refl _
    · exact ((ih hnew.2).cons e).trans (List.Perm.swap entry e rest)
    · exfalso
      apply hnew.1
      apply string_less_total
      · simpa using h1
      · simpa using h2

theorem map_fold_sorted {V : Type} (entries : List (List Nat × V)) :
    ∀ acc : List (List Nat × V), acc.Pairwise (fun x y => string_less x.1 y.1 = true) →
      (entries.foldl (fun m entry => map_insert entry m) acc).Pairwise
        (fun x y => string_less x.1 y.1 = true) := by
  induction entries with
  | nil => intro acc h; exact h
  | cons e rest ih =>
    intro acc h
    exact ih (map_insert e acc) (map_insert_sorted e acc h)

theorem map_fold_perm {V : Type} (entries : List (List Nat × V)) :
    ∀ acc : List (List Nat × V), ((acc ++ entries).map Prod.fst).Nodup →
      (entries.foldl (fun m entry => map_insert entry m) acc).Perm (acc ++ entries) := by
  induction entries with
  | nil => intro acc _; simp
  | cons e rest ih =>
    intro acc h
    have hmid : (acc ++ e :: rest).Perm (e :: acc ++ rest) := by
      exact List.perm_middle
    have hnd : ((e :: acc ++ rest).map Prod.fst).Nodup := (hmid.map Prod.fst).nodup_iff.mp h
    have hnew : e.1 ∉ acc.map Prod.fst := by
      simp only [List.cons_append, List.map_cons, List.map_append, List.nodup_cons,
        List.mem_append, not_or] at hnd
      exact hnd.1.1
    have hins := map_insert_perm e acc hnew
    have hp : (map_insert e acc ++ rest).Perm (e :: acc ++ rest) := hins.append_right rest
    have hnd2 : ((map_insert e acc ++ rest).map Prod.fst).Nodup :=
      (hp.map Prod.fst).nodup_iff.mpr hnd
    exact (ih (map_insert e acc) hnd2).trans (hp.trans hmid.symm)

theorem map_of_sorted {V : Type} (entries : List (List Nat × V)) :
    (map_of entries).Pairwise (fun x y => string_less x.1 y.1 = true) :=
  map_fold_sorted entries [] List.Pairwise.nil

theorem map_of_perm {V : Type} (entries : List (List Nat × V))
    (h : (entries.map Prod.fst).Nodup) : (map_of entries).Perm entries := by
  have := map_fold_perm entries [] (by simpa using h)
  simpa [map_of] using this

theorem sorted_perm_unique {V : Type} (l1 l2 : List (List Nat × V)) (hp : l1.Perm l2)
    (h1 : l1.Pairwise (fun x y => string_less x.1 y.1 = true))
    (h2 : l2.Pairwise (fun x y => string_less x.1 y.1 = true)) : l1 = l2 := by
  have anti : IsAntisymm (List Nat × V) (fun x y => string_less x.1 y.1 = true) :=
    ⟨fun a b hab hba => by
      have h := string_less_trans _ _ _ hab hba
      rw [string_less_irrefl] at h
      exact absurd h (by decide)⟩
  exact List.eq_of_perm_of_sorted hp h1 h2

theorem ser_fold_eq {V : Type} (enc : V → List Nat) (m : List (List Nat × V)) :
    ∀ s : ByteStream,
      m.foldl (fun s kv => nextMapKey s kv.1 ++ enc kv.2) s
        = s ++ (m.map (fun kv => varint_bytes kv.1.length ++ kv.1 ++ enc kv.2)).flatten := by
  induction m with
  | nil => intro s; simp
  | cons e rest ih =>
    intro s
    simp only [List.foldl_cons, List.map_cons, List.flatten_cons]
    rw [ih]
    simp [nextMapKey, seria_v_string_eq, List.append_assoc]

/-- C6: encoding a string-keyed mapping of `N` entries writes the varint of `N`
and then the `N` pairs, each as the key (varint of its length, then its bytes,
through `nextMapKey`) followed by the value; the pairs are the inserted entries
in strictly ascending key order, whatever the order of insertion, so the
mappings built as b:2, a:1 and as a:1, b:2 both give 02 01 61 01 01 62 02. -/
theorem ser_map_ascending_keys {V : Type} (enc : V → List Nat) (stream : ByteStream)
    (entries : List (List Nat × V)) (hkeys : (entries.map Prod.fst).Nodup) :
    ser_map (fun s v => s ++ enc v) stream (map_of entries)
        = stream ++ varint_bytes entries.length
          ++ ((map_of entries).map
                (fun kv => varint_bytes kv.1.length ++ kv.1 ++ enc kv.2)).flatten ∧
      (map_of entries).Perm entries ∧
      (map_of entries).Pairwise (fun x y => string_less x.1 y.1 = true) ∧
      (∀ other : List (List Nat × V), other.Perm entries →
        ser_map (fun s v => s ++ enc v) stream (map_of other)
          = ser_map (fun s v => s ++ enc v) stream (map_of entries)) ∧
      ser_map seria_v_uint64 [] (map_of [([0x62], 2), ([0x61], 1)])
        = [0x02, 0x01, 0x61, 0x01, 0x01, 0x62, 0x02] ∧
      ser_map seria_v_uint64 [] (map_of [([0x61], 1), ([0x62], 2)])
        = [0x02, 0x01, 0x61, 0x01, 0x01, 0x62, 0x02] := by
  have hperm := map_of_perm entries hkeys
  refine ⟨?_, hperm, map_of_sorted entries, ?_, by decide, by decide⟩
  · unfold ser_map
    rw [ser_fold_eq enc (map_of entries)]
    simp [beginMap, write_varint_eq, hperm.length_eq]
  · intro other hother
    have hk2 : (other.map Prod.fst).Nodup := (hother.map Prod.fst).nodup_iff.mpr hkeys
    have hp2 : (map_of other).Perm (map_of entries) :=
      ((map_of_perm other hk2).trans hother).trans hperm.symm
    rw [sorted_perm_unique _ _ hp2 (map_of_sorted other) (map_of_sorted entries)]

/-- C9: every negative value of a signed type is written with the largest
number of bytes a value of that width takes: 3 bytes for `int16_t`, 5 for
`int32_t`, 10 for `int64_t`, and no value of the width, signed or unsigned,
takes more. -/
theorem seria_v_negative_maximal (t : SignedType) (stream : ByteStream) (v : Int)
    (hneg : v < 0) (hlo : -(2 : Int) ^ (t.bits - 1) ≤ v) :
    (seria_v_signed t stream v).length
        = stream.length + (match t with | .int16_t => 3 | .int32_t => 5 | .int64_t => 10) ∧
      (∀ u : Int, -(2 : Int) ^ (t.bits - 1) ≤ u → u < 2 ^ (t.bits - 1) →
        (seria_v_signed t stream u).length
          ≤ stream.length + (match t with | .int16_t => 3 | .int32_t => 5 | .int64_t => 10)) ∧
      (∀ n : Nat, n < 2 ^ t.bits →
        (seria_v_unsigned t.toUnsigned stream n).length
          ≤ stream.length + (match t with | .int16_t => 3 | .int32_t => 5 | .int64_t => 10)) := by
  have hp := pow_pred_le t.bits
  have hc := static_cast_unsigned_cast t.bits v (by omega) (by omega)
  rw [if_neg (by omega)] at hc
  refine ⟨?_, ?_, ?_⟩
  · rw [seria_v_signed_eq, List.length_append]
    cases t
    · simp only [SignedType.bits] at hc hlo ⊢
      rw [varint_length_eq 2 _ (by norm_num at hlo ⊢; omega) (by norm_num at hlo ⊢; omega)]
    · simp only [SignedType.bits] at hc hlo ⊢
      rw [varint_length_eq 4 _ (by norm_num at hlo ⊢; omega) (by norm_num at hlo ⊢; omega)]
    · simp only [SignedType.bits] at hc hlo ⊢
      rw [varint_length_eq 9 _ (by norm_num at hlo ⊢; omega) (by norm_num at hlo ⊢; omega)]
  · intro u _ _
    have hu := static_cast_unsigned_lt t.bits u
    rw [seria_v_signed_eq, List.length_append]
    cases t
    · simp only [SignedType.bits] at hu ⊢
      have := varint_length_le 2 _ (lt_of_lt_of_le hu (by norm_num))
      omega
    · simp only [SignedType.bits] at hu ⊢
      have := varint_length_le 4 _ (lt_of_lt_of_le hu (by norm_num))
      omega
    · simp only [SignedType.bits] at hu ⊢
      have := varint_length_le 9 _ (lt_of_lt_of_le hu (by norm_num))
      omega
  · intro n hn
    rw [seria_v_unsigned_eq, List.length_append]
    cases t
    · simp only [SignedType.bits] at hn ⊢
      have := varint_length_le 2 n (lt_of_lt_of_le hn (by norm_num))
      omega
    · simp only [SignedType.bits] at hn ⊢
      have := varint_length_le 4 n (lt_of_lt_of_le hn (by norm_num))
      omega
    · simp only [SignedType.bits] at hn ⊢
      have := varint_length_le 9 n (lt_of_lt_of_le hn (by norm_num))
      omega

/-- C10: the string encoding is a prefix code, hence uniquely decodable: if the
encoding of `s1` followed by `r1` equals the encoding of `s2` followed by `r2`,
then `s1 = s2` and `r1 = r2`; the same holds for the varint of a `uint64_t`. -/
theorem seria_v_string_uniquely_decodable (stream : ByteStream) :
    (∀ s1 s2 r1 r2 : List Nat,
        seria_v_string stream s1 ++ r1 = seria_v_string stream s2 ++ r2 → s1 = s2 ∧ r1 = r2) ∧
      (∀ (a b : Nat) (r1 r2 : List Nat),
        seria_v_uint64 stream a ++ r1 = seria_v_uint64 stream b ++ r2 → a = b ∧ r1 = r2) := by
  constructor
  · intro s1 s2 r1 r2 h
    rw [seria_v_string_eq, seria_v_string_eq] at h
    simp only [List.append_assoc] at h
    have h2 := varint_bytes_cancel _ _ _ _ (List.append_cancel_left h)
    exact List.append_inj h2.2 h2.1
  · intro a b r1 r2 h
    simp only [seria_v_uint64, write_varint_eq, List.append_assoc] at h
    exact varint_bytes_cancel _ _ _ _ (List.append_cancel_left h)

/-- Witness for C1: the 16-bit value 300 written after the byte 07. -/
theorem seria_v_unsigned_minimal_varint_witness :
    300 < 2 ^ UnsignedType.uint16_t.bits ∧
      ∃ bs : List Nat,
        seria_v_unsigned .uint16_t [0x07] 300 = [0x07] ++ bs ∧
        1 ≤ bs.length ∧
        (∀ i, i < bs.length → bs.getD i 0 % 128 = 300 / 128 ^ i % 128) ∧
        (∀ i, i + 1 < bs.length → 128 ≤ bs.getD i 0 ∧ bs.getD i 0 < 256) ∧
        (∀ i, i + 1 = bs.length → bs.getD i 0 < 128) ∧
        300 < 128 ^ bs.length ∧
        (bs.length = 1 ∨ 128 ^ (bs.length - 1) ≤ 300) ∧
        (300 = 0 → bs = [0]) ∧
        bs.length ≤ 10 ∧
        seria_v_uint64 [] 127 = [0x7f] ∧
        seria_v_uint64 [] 128 = [0x80, 0x01] ∧
        seria_v_uint64 [] 16383 = [0xff, 0x7f] ∧
        seria_v_uint64 [] 16384 = [0x80, 0x80, 0x01] :=
  ⟨by decide, seria_v_unsigned_minimal_varint .uint16_t [0x07] 300 (by decide)⟩

/-- Witness for C2: the 32-bit value -2 written to an empty stream. -/
theorem seria_v_signed_reinterprets_witness :
    (-(2 : Int) ^ (SignedType.int32_t.bits - 1) ≤ -2 ∧ (-2 : Int) < 2 ^ (SignedType.int32_t.bits - 1)) ∧
      (seria_v_signed .int32_t [] (-2)
          = seria_v_unsigned SignedType.int32_t.toUnsigned [] ((-2 : Int) % 2 ^ SignedType.int32_t.bits).toNat ∧
        ((-2 : Int) % 2 ^ SignedType.int32_t.bits).toNat < 2 ^ SignedType.int32_t.toUnsigned.bits ∧
        ((((-2 : Int) % 2 ^ SignedType.int32_t.bits).toNat : Int)
          = if 0 ≤ (-2 : Int) then -2 else -2 + 2 ^ SignedType.int32_t.bits) ∧
        (∀ u : Int, -(2 : Int) ^ (SignedType.int32_t.bits - 1) ≤ u →
          u < 2 ^ (SignedType.int32_t.bits - 1) →
          seria_v_signed .int32_t [] u = seria_v_signed .int32_t [] (-2) → u = -2) ∧
        seria_v_int16 [] (-1) = [0xff, 0xff, 0x03]) :=
  ⟨⟨by decide, by decide⟩,
    seria_v_signed_reinterprets .int32_t [] (-2) (by decide) (by decide)⟩

/-- Witness for C6: the mapping b:2, a:1 with values written as varints. -/
theorem ser_map_ascending_keys_witness :
    ([([0x62], 2), ([0x61], 1)].map Prod.fst : List (List Nat)).Nodup ∧
      (ser_map (fun s v => s ++ varint_bytes v) [] (map_of [([0x62], 2), ([0x61], 1)])
          = [] ++ varint_bytes [([0x62], 2), ([0x61], 1)].length
            ++ ((map_of [([0x62], 2), ([0x61], 1)]).map
                  (fun kv => varint_bytes kv.1.length ++ kv.1 ++ varint_bytes kv.2)).flatten ∧
        (map_of [([0x62], 2), ([0x61], 1)]).Perm [([0x62], 2), ([0x61], 1)] ∧
        (map_of [([0x62], 2), ([0x61], 1)]).Pairwise
          (fun x y => string_less x.1 y.1 = true) ∧
        (∀ other : List (List Nat × Nat), other.Perm [([0x62], 2), ([0x61], 1)] →
          ser_map (fun s v => s ++ varint_bytes v) [] (map_of other)
            = ser_map (fun s v => s ++ varint_bytes v) []
                (map_of [([0x62], 2), ([0x61], 1)])) ∧
        ser_map seria_v_uint64 [] (map_of [([0x62], 2), ([0x61], 1)])
          = [0x02, 0x01, 0x61, 0x01, 0x01, 0x62, 0x02] ∧
        ser_map seria_v_uint64 [] (map_of [([0x61], 1), ([0x62], 2)])
          = [0x02, 0x01, 0x61, 0x01, 0x01, 0x62, 0x02]) :=
  ⟨by decide,
    ser_map_ascending_keys varint_bytes [] [([0x62], 2), ([0x61], 1)] (by decide)⟩

/-- Witness for C8: a buffer of three bytes written after two bytes. -/
theorem binary_appends_raw_witness :
    ([0xaa, 0xbb, 0xcc] : List Nat).length = 3 ∧
      (binary [0x01, 0x02] [0xaa, 0xbb, 0xcc] 3 = [0x01, 0x02] ++ [0xaa, 0xbb, 0xcc] ∧
        (binary [0x01, 0x02] [0xaa, 0xbb, 0xcc] 3).length = ([0x01, 0x02] : List Nat).length + 3 ∧
        (binary [0x01, 0x02] [0xaa, 0xbb, 0xcc] 3).take ([0x01, 0x02] : List Nat).length
          = [0x01, 0x02] ∧
        (binary [0x01, 0x02] [0xaa, 0xbb, 0xcc] 3).drop ([0x01, 0x02] : List Nat).length
          = [0xaa, 0xbb, 0xcc] ∧
        (3 = 0 → binary [0x01, 0x02] [0xaa, 0xbb, 0xcc] 3 = [0x01, 0x02])) :=
  ⟨rfl, binary_appends_raw [0x01, 0x02] [0xaa, 0xbb, 0xcc] 3 rfl⟩

/-- Witness for C9: the smallest 64-bit value, written to an empty stream. -/
theorem seria_v_negative_maximal_witness :
    ((-(2 : Int) ^ 63 < 0) ∧ -(2 : Int) ^ (SignedType.int64_t.bits - 1) ≤ -(2 : Int) ^ 63) ∧
      ((seria_v_signed .int64_t [] (-(2 : Int) ^ 63)).length = ([] : List Nat).length + 10 ∧
        (∀ u : Int, -(2 : Int) ^ (SignedType.int64_t.bits - 1) ≤ u →
          u < 2 ^ (SignedType.int64_t.bits - 1) →
          (seria_v_signed .int64_t [] u).length ≤ ([] : List Nat).length + 10) ∧
        (∀ n : Nat, n < 2 ^ SignedType.int64_t.bits →
          (seria_v_unsigned SignedType.int64_t.toUnsigned [] n).length
            ≤ ([] : List Nat).length + 10)) :=
  ⟨⟨by decide, by decide⟩,
    seria_v_negative_maximal .int64_t [] (-(2 : Int) ^ 63) (by decide) (by decide)⟩

/-- Witness for C10: the string "a" followed by the byte 05. -/
theorem seria_v_string_uniquely_decodable_witness :
    seria_v_string [] [0x61] ++ [0x05] = seria_v_string [] [0x61] ++ [0x05] ∧
      (([0x61] : List Nat) = [0x61] ∧ ([0x05] : List Nat) = [0x05]) :=
  ⟨rfl, (seria_v_string_uniquely_decodable []).1 [0x61] [0x61] [0x05] [0x05] rfl⟩

end seria
